import Mathlib

/-!
Verification of the `Shell` repository (an interactive POSIX-style shell in C)
against its natural-language specification.

The development shallowly embeds the relevant C functions of
`src/src/dynamic.c`, `src/src/main.c` and `src/unnamed/part_000`
(a further revision of `src/main.c`) as executable Lean functions over
`List Char` (C strings without their terminating NUL byte), and proves or
refutes the frozen claims about them.
-/

/-- C `isspace` in the default locale: space, `\t`, `\n`, `\v`, `\f`, `\r`. -/
def isCSpace (c : Char) : Bool :=
  c = ' ' ∨ c = '\t' ∨ c = '\n' ∨ c = '\x0b' ∨ c = '\x0c' ∨ c = '\r'
/-- The blank set used by `parse_input` in `src/src/main.c` (space and tab only). -/
def isBlank (c : Char) : Bool := c = ' ' ∨ c = '\t'
/-- C `isalnum(c) || c == '_'` as used by the expander when scanning a `$` name
(`src/src/dynamic.c`, lines 228 and 263). -/
def isAlnumU (c : Char) : Bool := c.isAlpha ∨ c.isDigit ∨ c = '_'
/-- Trimming as performed on each pipe part by `split_pipes`
(`src/src/dynamic.c` lines 397-398): drop leading `isspace` bytes, then drop
trailing `isspace` bytes. -/
def trimList (s : List Char) : List Char :=
  ((s.dropWhile isCSpace).reverse.dropWhile isCSpace).reverse
/-- The loop body of `split_pipes` (`src/src/dynamic.c` lines 386-408).
`sq`/`dq` are the `in_sq`/`in_dq` flags, `acc` is the current part
(the bytes from `start` up to the current index `i`).  A part is emitted,
trimmed, at every `|` seen with both flags clear and at the end of the line;
a `'` always toggles `in_sq` and a `"` always toggles `in_dq`. -/
def split_pipes_go : List Char → Bool → Bool → List Char → List (List Char)
  | [], _, _, acc => [trimList acc]
  | c :: r, sq, dq, acc =>
    if c = '|' ∧ sq = false ∧ dq = false then
      trimList acc :: split_pipes_go r sq dq []
    else
      split_pipes_go r (if c = '\'' then !sq else sq) (if c = '"' then !dq else dq)
        (acc ++ [c])
/-- `split_pipes` of `src/src/dynamic.c` (lines 386-408): split a line at the
`|` characters at which both quote flags are clear, trimming each part. -/
def split_pipes (line : List Char) : List (List Char) :=
  split_pipes_go line false false []
/-- Reference splitter written from the spec's words for the pipe-split step
("Split the expanded line on `|`, respecting single- and double-quoted regions
(a `|` inside matching quotes is literal)"): a left-to-right scan in which,
outside any quote, `'` opens a single-quoted region closed by the next `'` and
`"` opens a double-quoted region closed by the next `"`; a quote character of
the other kind inside a region is literal; a `|` splits only outside both
kinds of region.  Each part is trimmed. -/
def split_on_pipes_quote_regions : List Char → Option Char → List Char → List (List Char)
  | [], _, acc => [trimList acc]
  | c :: r, some q, acc =>
    if c = q then split_on_pipes_quote_regions r none (acc ++ [c])
    else split_on_pipes_quote_regions r (some q) (acc ++ [c])
  | c :: r, none, acc =>
    if c = '|' then trimList acc :: split_on_pipes_quote_regions r none []
    else if c = '\'' ∨ c = '"' then split_on_pipes_quote_regions r (some c) (acc ++ [c])
    else split_on_pipes_quote_regions r none (acc ++ [c])
/-- The spec-worded pipe splitter, starting outside any quoted region. -/
def split_pipes_spec (line : List Char) : List (List Char) :=
  split_on_pipes_quote_regions line none []
/-- Characterisation of the split positions actually used by `split_pipes`:
carrying the counts `n1` of `'` characters and `n2` of `"` characters seen so
far, a `|` is a separator exactly when both counts are even (the untrimmed
parts are returned). -/
def parity_split : List Char → Nat → Nat → List (List Char)
  | [], _, _ => [[]]
  | c :: r, n1, n2 =>
    if c = '|' ∧ n1 % 2 = 0 ∧ n2 % 2 = 0 then
      [] :: parity_split r n1 n2
    else
      match parity_split r (if c = '\'' then n1 + 1 else n1)
          (if c = '"' then n2 + 1 else n2) with
      | [] => []
      | p :: ps => (c :: p) :: ps
/-- Prepend a list to the head element of a list of lists. -/
def consHead (pre : List Char) : List (List Char) → List (List Char)
  | [] => []
  | p :: ps => (pre ++ p) :: ps
/-- An environment, abstracting `getenv`: `none` models an unset variable. -/
def EnvT : Type := List Char → Option (List Char)
/-- An oracle for `run_command_capture` (`src/src/dynamic.c` lines 190-206):
the captured standard output, trailing newlines stripped, of the subordinate
interpreter run on the given command text. -/
def CapT : Type := List Char → List Char
/-- The balanced-parenthesis scan of the `$( ... )` branches of
`expand_variables_and_subst` (`src/src/dynamic.c` lines 230-231 and 255),
entered just after `$(` with `depth = 1`.  Returns the scanned text
(`strndup(input+i+2, j-(i+2)-1+1)`, which includes the closing parenthesis
when one is found) and the rest of the input from the final scan index `j`. -/
def scanParen : List Char → Nat → List Char × List Char
  | [], _ => ([], [])
  | c :: r, depth =>
    let depth' := if c = '(' then depth + 1 else if c = ')' then depth - 1 else depth
    if depth' = 0 then ([c], r)
    else
      let res := scanParen r depth'
      (c :: res.1, res.2)
/-- The `while (input[i] && input[i] != '"')` loop inside the double-quote
branch of `expand_variables_and_subst` (`src/src/dynamic.c` lines 222-250),
entered just after the opening `"`.  Branches set the scan index `i` exactly
as the C does; the plain-character branch executes `out[oi++]=input[i++];
i--;`, leaving `i` unchanged, so the loop never advances past an ordinary
character and diverges there.  Divergence is modelled by fuel exhaustion
(`none`).  On exit the function returns the emitted bytes and the rest of the
input after the loop (after the closing quote, or nothing when the loop ran
into the end of the string).  The branch for `$(` at lines 229-237 is dead
code (every `$` is caught by the branch at line 225) and has no counterpart
here. -/
def dqGo (env : EnvT) (cap : CapT) : Nat → List Char → Option (List Char × List Char)
  | 0, _ => none
  | _ + 1, [] => some ([], [])
  | fuel + 1, c :: r =>
    if c = '"' then some ([], r)
    else if c = '$' then
      match r with
      | '{' :: r2 =>
        let name := r2.takeWhile (· ≠ '}')
        let val := (env name).getD []
        match r2.dropWhile (· ≠ '}') with
        | '}' :: rest =>
          (fun p => (val ++ p.1, p.2)) <$> dqGo env cap fuel ('}' :: rest)
        | _ =>
          (fun p => (val ++ p.1, p.2)) <$> dqGo env cap fuel (('{' :: r2).drop r2.length)
      | _ =>
        let name := r.takeWhile isAlnumU
        let val := (env name).getD []
        (fun p => (val ++ p.1, p.2)) <$> dqGo env cap fuel (('$' :: r).drop name.length)
    else if c = '`' then
      let inner := r.takeWhile (· ≠ '`')
      match r.dropWhile (· ≠ '`') with
      | '`' :: rest =>
        (fun p => (cap inner ++ p.1, p.2)) <$> dqGo env cap fuel ('`' :: rest)
      | _ =>
        (fun p => (cap inner ++ p.1, p.2)) <$> dqGo env cap fuel (('`' :: r).drop r.length)
    else
      (fun p => (c :: p.1, p.2)) <$> dqGo env cap fuel (c :: r)
/-- The main `for (size_t i = 0; input[i]; ++i)` loop of
`expand_variables_and_subst` (`src/src/dynamic.c` lines 209-279), one step of
fuel per iteration.  Each branch consumes input and emits output exactly as
the C does; where the C scans past the terminating NUL byte (an unterminated
quote makes the `for` increment step over it), the model treats the input as
exhausted. -/
def expandGo (env : EnvT) (cap : CapT) : Nat → List Char → Option (List Char)
  | 0, _ => none
  | _ + 1, [] => some []
  | fuel + 1, c :: r =>
    if c = '\\' then
      if r = [] then expandGo env cap fuel []
      else (fun o => r.headI :: o) <$> expandGo env cap fuel r.tail
    else if c = '\'' then
      let content := r.takeWhile (· ≠ '\'')
      (fun o => content ++ o) <$> expandGo env cap fuel ((r.dropWhile (· ≠ '\'')).drop 1)
    else if c = '"' then
      (dqGo env cap fuel r).bind
        (fun p => (fun o => p.1 ++ o) <$> expandGo env cap fuel p.2)
    else if c = '$' then
      if r.head? = some '{' then
        let r2 := r.tail
        let name := r2.takeWhile (· ≠ '}')
        let val := (env name).getD []
        (fun o => val ++ o) <$> expandGo env cap fuel ((r2.dropWhile (· ≠ '}')).drop 1)
      else if r.head? = some '(' then
        let res := scanParen r.tail 1
        (fun o => cap res.1 ++ o) <$> expandGo env cap fuel res.2
      else
        let name := r.takeWhile isAlnumU
        if name = [] then (fun o => '$' :: o) <$> expandGo env cap fuel r
        else (fun o => (env name).getD [] ++ o) <$> expandGo env cap fuel (r.drop name.length)
    else if c = '`' then
      let inner := r.takeWhile (· ≠ '`')
      (fun o => cap inner ++ o) <$> expandGo env cap fuel ((r.dropWhile (· ≠ '`')).drop 1)
    else
      (fun o => c :: o) <$> expandGo env cap fuel r
/-- `expand_variables_and_subst` of `src/src/dynamic.c` (lines 208-279).
`input.length + 2` units of fuel cover every terminating execution (every
loop iteration that continues consumes at least one input byte); `none`
means the C loop diverges on this input. -/
def expand_variables_and_subst (env : EnvT) (cap : CapT) (input : List Char) :
    Option (List Char) :=
  expandGo env cap (input.length + 2) input
/-- The empty environment: every variable unset (`getenv` returns `NULL`). -/
def env0 : EnvT := fun _ => none
/-- A command-substitution oracle capturing nothing. -/
def cap0 : CapT := fun _ => []
/-- `HISTORY_MAX` of `src/src/dynamic.c` (line 33). -/
def HISTORY_MAX : Nat := 50000
/-- `MAX_HISTORY` of `src/src/main.c` (line 14). -/
def MAX_HISTORY : Nat := 1000
/-- The in-memory effect of `add_history_inmem_and_file` in `src/src/dynamic.c`
(lines 97-107): an empty line is ignored; below `HISTORY_MAX` the line is
pushed at the end; at capacity the oldest entry is freed, the rest shifted
left, and the new line stored in the last slot. -/
def add_history_inmem (hist : List (List Char)) (line : List Char) : List (List Char) :=
  if line = [] then hist
  else if hist.length < HISTORY_MAX then hist ++ [line]
  else hist.drop 1 ++ [line]
/-- The in-memory effect of `save_history` in `src/src/main.c` (lines 75-82)
and of the identical `save_history` in `src/unnamed/part_000` (lines 174-181).
`fileOk` models whether `fopen(HISTORY_FILE, "a")` succeeded: on failure the
function returns before touching memory; on success the line is appended to
the file and then pushed in memory only while below `MAX_HISTORY`. -/
def save_history_mem (fileOk : Bool) (hist : List (List Char)) (line : List Char) :
    List (List Char) :=
  if fileOk = false then hist
  else if hist.length < MAX_HISTORY then hist ++ [line]
  else hist
/-- The REPL gate of `src/src/dynamic.c` `main` (lines 559-565): the newline-
stripped line is trimmed of leading whitespace; when nothing remains the
iteration ends (`continue`) before `add_history_inmem_and_file` and before
`execute_pipeline`, so `none` means no history entry is written and no child
is forked; otherwise `some trim` is passed to history and execution. -/
def dynamic_repl_gate (line : List Char) : Option (List Char) :=
  let trim := line.dropWhile isCSpace
  if trim = [] then none else some trim
/-- One `src/src/main.c` REPL iteration up to its history write (lines
286-291): only the exactly-empty line is skipped (`strlen(line) == 0`); any
other line — including one made of whitespace — is passed to `save_history`
before dispatch.  `none` models the skipped iteration; `some h` is the
in-memory history after the accepted line is saved. -/
def mainc_repl_history (fileOk : Bool) (hist : List (List Char)) (line : List Char) :
    Option (List (List Char)) :=
  if line.length = 0 then none
  else some (save_history_mem fileOk hist line)
/-- `parse_input` of `src/src/main.c` (lines 85-126): split on spaces and
tabs; a token starting with `"` or `'` extends to the matching quote (or end
of line) and is stored without the quotes.  Fueled; `parse_input` supplies
enough fuel for the whole line, since each loop iteration consumes at least
one byte. -/
def parse_input_go : Nat → List Char → List (List Char)
  | 0, _ => []
  | fuel + 1, s =>
    let s1 := s.dropWhile isBlank
    match s1 with
    | [] => []
    | c :: r =>
      if c = '"' ∨ c = '\'' then
        let tok := r.takeWhile (· ≠ c)
        let rest := (r.dropWhile (· ≠ c)).drop 1
        tok :: parse_input_go fuel rest
      else
        let tok := s1.takeWhile (fun x => !isBlank x)
        let rest := s1.dropWhile (fun x => !isBlank x)
        tok :: parse_input_go fuel rest
/-- `parse_input` of `src/src/main.c` on a whole line. -/
def parse_input (line : List Char) : List (List Char) :=
  parse_input_go (line.length + 1) line
/-- The listing printed by the `history` builtin (`src/src/main.c` lines
297-299, `src/unnamed/part_000` lines 422-424): the pair `(i + 1,
history[i])` for each stored line, `n` being the index printed for the first
entry of the remaining list. -/
def history_listing : Nat → List (List Char) → List (Nat × List Char)
  | _, [] => []
  | n, l :: rest => (n, l) :: history_listing (n + 1) rest
/-- One `src/src/main.c` REPL iteration dispatching to the `history` builtin
(lines 286-299): the accepted line is saved by `save_history` first, then
`parse_input` runs and, when `args[0]` is `history`, the listing of the
already-updated history is printed.  Returns that listing, or `none` when the
line is skipped or dispatches elsewhere. -/
def mainc_history_builtin (fileOk : Bool) (hist : List (List Char)) (line : List Char) :
    Option (List (Nat × List Char)) :=
  if line.length = 0 then none
  else
    let hist2 := save_history_mem fileOk hist line
    if (parse_input line).head? = some "history".toList then
      some (history_listing 1 hist2)
    else none
/-- `EXIT_FAILURE` of the C standard library (value 1). -/
def EXIT_FAILURE : Nat := 1
/-- What a forked child does at its exec point: the process image is replaced
on success, otherwise the child exits with a code, having (or not) written a
diagnostic to stderr first. -/
inductive ChildOutcome where
  | replaced : ChildOutcome
  | exited : Nat → Bool → ChildOutcome
deriving DecidableEq
/-- The tail of the child branch of `execute_pipeline` in `src/src/dynamic.c`
(lines 467-469): `execvp`; on failure `fprintf(stderr, "%s: %s\n", ...)` then
`_exit(127)`. -/
def child_after_exec_dynamic (execOk : Bool) : ChildOutcome :=
  if execOk then ChildOutcome.replaced else ChildOutcome.exited 127 true
/-- The tail of the child branch of `launch_pipeline` in `src/unnamed/part_000`
(lines 573-576): `execvp`; on failure `perror("exec")` then `exit(127)`. -/
def child_after_exec_part000 (execOk : Bool) : ChildOutcome :=
  if execOk then ChildOutcome.replaced else ChildOutcome.exited 127 true
/-- The tail of the child branch of `shell_execute` in `src/src/main.c`
(lines 170-172): `if (execvp(args[0], args) == -1) perror("shell");` then
`exit(EXIT_FAILURE)`. -/
def child_after_exec_mainc (execOk : Bool) : ChildOutcome :=
  if execOk then ChildOutcome.replaced else ChildOutcome.exited EXIT_FAILURE true
/-- Who a `tcsetpgrp(shell_terminal, -)` call hands the terminal to. -/
inductive TermOwner where
  | shellPg : TermOwner
  | childPg : TermOwner
deriving DecidableEq
/-- Per-segment outcome of the launch loop: the `pipe()` call failed (only
attempted when the segment is not the last), the `fork()` call failed, or
both succeeded. -/
inductive StepOutcome where
  | ok : StepOutcome
  | pipeFail : StepOutcome
  | forkFail : StepOutcome
deriving DecidableEq
/-- The `tcsetpgrp` handover events of the launch loop of `execute_pipeline`
(`src/src/dynamic.c` lines 415-484) and, identically, of `launch_pipeline`
(`src/unnamed/part_000` lines 511-596), one `StepOutcome` per segment.  Each
successfully forked child of a foreground pipeline calls
`tcsetpgrp(shell_terminal, pgid)` (dynamic.c line 452, part_000 line 533),
recorded as a `childPg` event.  On `pipe()` failure (dynamic.c line 439,
part_000 line 516) or `fork()` failure (dynamic.c line 442, part_000 line
522) the function returns at once; the returned flag is `false` and no
further event is recorded.  -/
def pipeline_loop_events (bg : Bool) : List StepOutcome → List TermOwner × Bool
  | [] => ([], true)
  | o :: rest =>
    if rest ≠ [] ∧ o = StepOutcome.pipeFail then ([], false)
    else if o = StepOutcome.forkFail then ([], false)
    else
      let res := pipeline_loop_events bg rest
      ((if bg then [] else [TermOwner.childPg]) ++ res.1, res.2)
/-- All terminal-handover events of one `execute_pipeline` call
(`src/src/dynamic.c` lines 410-506; `launch_pipeline` of
`src/unnamed/part_000` lines 506-629 is the same shape).  When the loop
completes and the pipeline is foreground, the parent hands the terminal to
the child group (line 491 / 605), waits, and reclaims it for the shell
unconditionally after the wait loop — on normal completion and on child stop
alike (line 502 / 626).  When the loop returns early on a pipe or fork
failure, the function returns with no reclaiming `tcsetpgrp` call. -/
def execute_pipeline_tc_events (bg : Bool) (outcomes : List StepOutcome) :
    List TermOwner :=
  let res := pipeline_loop_events bg outcomes
  if res.2 then
    if bg then res.1
    else res.1 ++ [TermOwner.childPg, TermOwner.shellPg]
  else res.1
/-- `tokenize` of `src/src/dynamic.c` (lines 282-315): split on whitespace; a
token that starts with `"` or `'` extends to the matching quote (or end of
string) and is stored without the quotes; quotes inside a bare token are not
special.  Fueled; each loop iteration consumes at least one byte. -/
def tokenize_go : Nat → List Char → List (List Char)
  | 0, _ => []
  | fuel + 1, s =>
    let s1 := s.dropWhile isCSpace
    match s1 with
    | [] => []
    | c :: r =>
      if c = '"' then
        (r.takeWhile (· ≠ '"')) :: tokenize_go fuel ((r.dropWhile (· ≠ '"')).drop 1)
      else if c = '\'' then
        (r.takeWhile (· ≠ '\'')) :: tokenize_go fuel ((r.dropWhile (· ≠ '\'')).drop 1)
      else
        (s1.takeWhile (fun x => !isCSpace x))
          :: tokenize_go fuel (s1.dropWhile (fun x => !isCSpace x))
/-- `tokenize` of `src/src/dynamic.c` on a whole segment. -/
def tokenize (s : List Char) : List (List Char) :=
  tokenize_go (s.length + 1) s
/-- Result of the redirection-extraction loop of `execute_pipeline`
(`src/src/dynamic.c` lines 422-437): the `cleanargv` list, the paths opened
for stdin and stdout (`<` and `>`/`>>` differ only in the `open(2)` flags,
not in this extraction logic; the last occurrence of a kind wins), and
whether a `syntax error near ...` diagnostic was printed to stderr. -/
structure ExtractSt where
  cleanargv : List (List Char)
  infile : Option (List Char)
  outfile : Option (List Char)
  errReported : Bool
deriving DecidableEq
/-- The redirection-extraction loop of `execute_pipeline`
(`src/src/dynamic.c` lines 425-436): an operator token followed by a target
consumes both; an operator token with no following token prints
`syntax error near '...'` to stderr and the loop simply continues — nothing
is abandoned. -/
def extract_redirs : List (List Char) → ExtractSt
  | [] => ⟨[], none, none, false⟩
  | a :: rest =>
    if a = "<".toList then
      match rest with
      | [] => ⟨[], none, none, true⟩
      | t :: rest2 =>
        let res := extract_redirs rest2
        ⟨res.cleanargv,
          (match res.infile with | some x => some x | none => some t),
          res.outfile, res.errReported⟩
    else if a = ">".toList ∨ a = ">>".toList then
      match rest with
      | [] => ⟨[], none, none, true⟩
      | t :: rest2 =>
        let res := extract_redirs rest2
        ⟨res.cleanargv, res.infile,
          (match res.outfile with | some x => some x | none => some t),
          res.errReported⟩
    else
      let res := extract_redirs rest
      ⟨a :: res.cleanargv, res.infile, res.outfile, res.errReported⟩
/-- What `execute_pipeline` does with one tokenized segment
(`src/src/dynamic.c` lines 417-443): an empty token list is skipped
(`continue`, no fork); otherwise the redirections are extracted and a child
is forked unconditionally — also when the extraction just reported a syntax
error, and even when `cleanargv` came out empty. -/
inductive SegAction where
  | skipped : SegAction
  | forked : List (List Char) → Bool → SegAction
deriving DecidableEq
/-- See `SegAction`: the per-segment behaviour of `execute_pipeline`. -/
def exec_segment (tokens : List (List Char)) : SegAction :=
  if tokens = [] then SegAction.skipped
  else
    let e := extract_redirs tokens
    SegAction.forked e.cleanargv e.errReported
/-- One parsed pipeline stage of `src/unnamed/part_000` (`cmd_t`, lines
306-311). -/
structure CmdT where
  argv : List (List Char)
  infile : Option (List Char)
  outfile : Option (List Char)
  append : Bool
deriving DecidableEq
/-- The redirection-target scan of `parse_segment` in `src/unnamed/part_000`
(lines 343-355 and 358-369): skip whitespace after the operator, then read a
quoted or bare word.  When the segment ends right after the operator the
scanned word is empty, and the empty string becomes the target — no error is
reported. -/
def read_redir_target (s : List Char) : List Char × List Char :=
  let s1 := s.dropWhile isCSpace
  match s1 with
  | [] => ([], [])
  | c :: r =>
    if c = '"' ∨ c = '\'' then
      (r.takeWhile (· ≠ c), (r.dropWhile (· ≠ c)).drop 1)
    else
      (s1.takeWhile (fun x => !isCSpace x), s1.dropWhile (fun x => !isCSpace x))
/-- The main loop of `parse_segment` in `src/unnamed/part_000` (lines
325-380), fueled (each iteration consumes at least one byte): whitespace-
separated words with quote stripping; a token starting with `>` (or `>>`) or
`<` consumes the following word — possibly empty — as `outfile`/`infile`,
the last occurrence winning. -/
def parse_segment_go : Nat → List Char → CmdT → CmdT
  | 0, _, acc => acc
  | fuel + 1, s, acc =>
    let s1 := s.dropWhile isCSpace
    match s1 with
    | [] => acc
    | c :: r =>
      if c = '"' ∨ c = '\'' then
        let tok := r.takeWhile (· ≠ c)
        let rest := (r.dropWhile (· ≠ c)).drop 1
        parse_segment_go fuel rest ⟨acc.argv ++ [tok], acc.infile, acc.outfile, acc.append⟩
      else if c = '>' then
        let app := r.head? = some '>'
        let r2 := if app then r.tail else r
        let res := read_redir_target r2
        parse_segment_go fuel res.2 ⟨acc.argv, acc.infile, some res.1, app⟩
      else if c = '<' then
        let res := read_redir_target r
        parse_segment_go fuel res.2 ⟨acc.argv, some res.1, acc.outfile, acc.append⟩
      else
        let tok := s1.takeWhile (fun x => !isCSpace x)
        let rest := s1.dropWhile (fun x => !isCSpace x)
        parse_segment_go fuel rest ⟨acc.argv ++ [tok], acc.infile, acc.outfile, acc.append⟩
/-- `parse_segment` of `src/unnamed/part_000` on a whole segment. -/
def parse_segment (seg : List Char) : CmdT :=
  parse_segment_go (seg.length + 1) seg ⟨[], none, none, false⟩
/-- `job_state_t` of `src/src/dynamic.c` (line 36). -/
inductive JobState where
  | running : JobState
  | stopped : JobState
  | done : JobState
deriving DecidableEq
/-- One slot of the static `jobs[MAX_JOBS]` array of `src/src/dynamic.c`
(lines 38-45).  `id = 0` marks a free slot. -/
structure JobRec where
  id : Nat
  pgid : Int
  cmdline : List Char
  state : JobState
deriving DecidableEq
/-- A zeroed slot, as produced by static initialisation (`enum` value 0 is
`JOB_RUNNING`) and by `remove_job`. -/
def freeSlot (st : JobState) : JobRec := ⟨0, 0, [], st⟩
/-- `MAX_JOBS` of `src/src/dynamic.c` (line 31). -/
def MAX_JOBS : Nat := 128
/-- The job-table globals of `src/src/dynamic.c`: the slot array and
`next_job_id` (lines 45-46). -/
structure JobsSt where
  slots : List JobRec
  next_job_id : Nat
deriving DecidableEq
/-- The state of the job table at program start. -/
def initJobs : JobsSt := ⟨List.replicate MAX_JOBS (freeSlot JobState.running), 1⟩
/-- The slot scan of `add_job` (`src/src/dynamic.c` lines 111-119): the first
slot with `id == 0` receives the new job; `none` when no slot is free. -/
def add_job_slots : List JobRec → Nat → Int → List Char → JobState → Option (List JobRec)
  | [], _, _, _, _ => none
  | s :: rest, nid, pgid, cmd, st =>
    if s.id = 0 then some (⟨nid, pgid, cmd, st⟩ :: rest)
    else (fun r => s :: r) <$> add_job_slots rest nid pgid cmd st
/-- `add_job` of `src/src/dynamic.c` (lines 110-122): the new job takes the
id `next_job_id++` — a counter that only ever grows; when the table is full
only `jobs: table full` is printed and nothing changes (the counter is not
incremented, line 113 being inside the slot branch). -/
def add_job (t : JobsSt) (pgid : Int) (cmd : List Char) (st : JobState) : JobsSt :=
  match add_job_slots t.slots t.next_job_id pgid cmd st with
  | some slots2 => ⟨slots2, t.next_job_id + 1⟩
  | none => t
/-- The effect of `find_job_by_id` followed by `remove_job`
(`src/src/dynamic.c` lines 128-140): zero the first slot whose id matches
(`id = 0`, `pgid = 0`, `cmdline = NULL`, `state = JOB_DONE`); nothing happens
when no slot matches.  `next_job_id` is untouched. -/
def remove_job_slots : List JobRec → Nat → List JobRec
  | [], _ => []
  | s :: rest, id =>
    if s.id = id then freeSlot JobState.done :: rest
    else s :: remove_job_slots rest id
/-- Removal of the job with the given id from the table. -/
def remove_job (t : JobsSt) (id : Nat) : JobsSt :=
  ⟨remove_job_slots t.slots id, t.next_job_id⟩
/-- The ids of the live jobs (slots with `id != 0`) of a slot list, in slot
order — the order `print_jobs` uses. -/
def liveList (l : List JobRec) : List Nat :=
  (l.filter (fun s => s.id ≠ 0)).map JobRec.id
/-- The ids of the live jobs of the table. -/
def liveIds (t : JobsSt) : List Nat := liveList t.slots
/-- The job-table invariant: ids of live jobs are positive, below the
`next_job_id` counter, and pairwise distinct; the counter is positive. -/
def JobsWF (t : JobsSt) : Prop :=
  0 < t.next_job_id
  ∧ (∀ i ∈ liveIds t, 0 < i ∧ i < t.next_job_id)
  ∧ (liveIds t).Nodup

/-- The token extraction performed by `strtok_r(s, "|", &saveptr)` in the
pipe-split loop of `main` in `src/unnamed/part_000` (lines 682-690): the
maximal non-empty runs of non-`|` characters, in order.  `strtok_r` skips
leading, consecutive and trailing delimiters, so empty segments are dropped.
`acc` is the run being read.  (The C stores at most 64 segments; the bound is
idealized away and no statement below depends on it.) -/
def strtok_runs : List Char → List Char → List (List Char)
  | [], acc => if acc = [] then [] else [acc]
  | c :: r, acc =>
    if c = '|' then
      if acc = [] then strtok_runs r []
      else acc :: strtok_runs r []
    else strtok_runs r (acc ++ [c])

/-- The pipe split of `main` in `src/unnamed/part_000` (lines 682-690): the
line is cut with `strtok_r` at every `|` — the loop's own comment says
"naive split, doesn't respect '|' in quotes" — and each token is passed
through `trim_copy` (lines 388-397), which trims exactly like `trimList`. -/
def part000_split_pipes (line : List Char) : List (List Char) :=
  (strtok_runs line []).map trimList

/-- Reference splitter for the characterisation of the `part_000` pipe split:
cut at every `|` character unconditionally, keeping empty segments. -/
def split_every_pipe : List Char → List (List Char)
  | [] => [[]]
  | c :: r =>
    if c = '|' then [] :: split_every_pipe r
    else consHead [c] (split_every_pipe r)

lemma consHead_nil (l : List (List Char)) : consHead [] l = l := by
  cases l <;> simp [consHead]
lemma consHead_consHead (a b : List Char) (l : List (List Char)) :
    consHead a (consHead b l) = consHead (a ++ b) l := by
  cases l <;> simp [consHead]
lemma parity_split_ne_nil : ∀ (l : List Char) (n1 n2 : Nat), parity_split l n1 n2 ≠ [] := by
  intro l
  induction l with
  | nil => intro n1 n2; simp [parity_split]
  | cons c r ih =>
    intro n1 n2
    by_cases h : c = '|' ∧ n1 % 2 = 0 ∧ n2 % 2 = 0
    · simp [parity_split, h]
    · have h2 := ih (if c = '\'' then n1 + 1 else n1) (if c = '"' then n2 + 1 else n2)
      rcases hps : parity_split r (if c = '\'' then n1 + 1 else n1)
          (if c = '"' then n2 + 1 else n2) with _ | ⟨p, ps⟩
      · exact absurd hps h2
      · simp [parity_split, h, hps]
lemma decide_succ_mod_two (n : Nat) :
    decide ((n + 1) % 2 = 1) = !decide (n % 2 = 1) := by
  rcases Nat.mod_two_eq_zero_or_one n with h | h <;> simp [Nat.add_mod, h]
lemma split_pipes_go_eq_parity :
    ∀ (l : List Char) (n1 n2 : Nat) (acc : List Char),
      split_pipes_go l (decide (n1 % 2 = 1)) (decide (n2 % 2 = 1)) acc
        = (consHead acc (parity_split l n1 n2)).map trimList := by
  intro l
  induction l with
  | nil => intro n1 n2 acc; simp [split_pipes_go, parity_split, consHead]
  | cons c r ih =>
    intro n1 n2 acc
    by_cases h : c = '|' ∧ n1 % 2 = 0 ∧ n2 % 2 = 0
    · have hsq : decide (n1 % 2 = 1) = false := by
        simp [h.2.1]
      have hdq : decide (n2 % 2 = 1) = false := by
        simp [h.2.2]
      have lhs : split_pipes_go (c :: r) (decide (n1 % 2 = 1)) (decide (n2 % 2 = 1)) acc
          = trimList acc :: split_pipes_go r (decide (n1 % 2 = 1)) (decide (n2 % 2 = 1)) [] := by
        simp [split_pipes_go, h.1, hsq, hdq]
      rw [lhs, ih n1 n2 [], consHead_nil]
      simp [parity_split, h, consHead]
    · have hcond : ¬(c = '|' ∧ decide (n1 % 2 = 1) = false ∧ decide (n2 % 2 = 1) = false) := by
        intro hc
        apply h
        refine ⟨hc.1, ?_, ?_⟩
        · have := hc.2.1; rcases Nat.mod_two_eq_zero_or_one n1 with h1 | h1
          · exact h1
          · simp [h1] at this
        · have := hc.2.2; rcases Nat.mod_two_eq_zero_or_one n2 with h1 | h1
          · exact h1
          · simp [h1] at this
      have hsq' : (if c = '\'' then !decide (n1 % 2 = 1) else decide (n1 % 2 = 1))
          = decide ((if c = '\'' then n1 + 1 else n1) % 2 = 1) := by
        by_cases hc : c = '\'' <;> simp [hc, decide_succ_mod_two]
      have hdq' : (if c = '"' then !decide (n2 % 2 = 1) else decide (n2 % 2 = 1))
          = decide ((if c = '"' then n2 + 1 else n2) % 2 = 1) := by
        by_cases hc : c = '"' <;> simp [hc, decide_succ_mod_two]
      have lhs : split_pipes_go (c :: r) (decide (n1 % 2 = 1)) (decide (n2 % 2 = 1)) acc
          = split_pipes_go r (decide ((if c = '\'' then n1 + 1 else n1) % 2 = 1))
              (decide ((if c = '"' then n2 + 1 else n2) % 2 = 1)) (acc ++ [c]) := by
        rw [split_pipes_go, if_neg hcond, hsq', hdq']
      rw [lhs, ih]
      rcases hps : parity_split r (if c = '\'' then n1 + 1 else n1)
          (if c = '"' then n2 + 1 else n2) with _ | ⟨p, ps⟩
      · exact absurd hps (parity_split_ne_nil r _ _)
      · have rhs : parity_split (c :: r) n1 n2 = (c :: p) :: ps := by
          simp [parity_split, h, hps]
        rw [rhs]
        show (consHead (acc ++ [c]) (p :: ps)).map trimList
            = (consHead acc ((c :: p) :: ps)).map trimList
        rw [consHead, consHead, List.append_cons]
        simp
/-- **C3, counterexample.**  The claim reads the pipe-split step as splitting
only at a `|` outside single- and double-quoted regions, a `|` inside
matching quotes staying within its segment — and it cites two
implementations.  Both violate it.  `split_pipes` of `src/src/dynamic.c`: on
the line `'"' "a|b"` the `|` lies inside a matched pair of double quotes
(the first `"` is single-quoted and literal), yet `split_pipes` splits there,
because its `in_sq`/`in_dq` flags toggle on every quote character regardless
of context.  The `strtok_r` split of `main` in `src/unnamed/part_000`: on
`echo 'a|b'` the `|` lies inside matched single quotes, yet the line is cut
there, because `strtok_r` ignores quoting entirely.  The spec-worded splitter
keeps each line whole while the code yields two parts. -/
theorem C3_counterexample :
    split_pipes ("'\"' \"a|b\"".toList) = ["'\"' \"a".toList, "b\"".toList]
    ∧ split_pipes_spec ("'\"' \"a|b\"".toList) = ["'\"' \"a|b\"".toList]
    ∧ split_pipes ("'\"' \"a|b\"".toList) ≠ split_pipes_spec ("'\"' \"a|b\"".toList)
    ∧ part000_split_pipes ("echo 'a|b'".toList) = ["echo 'a".toList, "b'".toList]
    ∧ split_pipes_spec ("echo 'a|b'".toList) = ["echo 'a|b'".toList]
    ∧ part000_split_pipes ("echo 'a|b'".toList)
      ≠ split_pipes_spec ("echo 'a|b'".toList) := by
  refine ⟨by decide, by decide, by decide, by decide, by decide, by decide⟩
lemma strtok_runs_eq :
    ∀ (l : List Char) (acc : List Char),
      strtok_runs l acc
        = (consHead acc (split_every_pipe l)).filter (fun p => p ≠ []) := by
  intro l
  induction l with
  | nil =>
    intro acc
    by_cases h : acc = [] <;> simp [strtok_runs, split_every_pipe, consHead, h]
  | cons c r ih =>
    intro acc
    by_cases hc : c = '|'
    · subst hc
      have hsep : split_every_pipe ('|' :: r) = [] :: split_every_pipe r := by
        simp [split_every_pipe]
      have hch : consHead acc ([] :: split_every_pipe r)
          = acc :: split_every_pipe r := by
        simp [consHead]
      rw [hsep, hch]
      by_cases h : acc = []
      · subst h
        have hih := ih []
        rw [consHead_nil] at hih
        simp [strtok_runs, List.filter_cons, hih]
      · have hih := ih []
        rw [consHead_nil] at hih
        simp [strtok_runs, List.filter_cons, h, hih]
    · have hstep : strtok_runs (c :: r) acc = strtok_runs r (acc ++ [c]) := by
        rw [strtok_runs, if_neg hc]
      have hsep : split_every_pipe (c :: r) = consHead [c] (split_every_pipe r) := by
        rw [split_every_pipe, if_neg hc]
      rw [hstep, hsep, consHead_consHead, ih (acc ++ [c])]
/-- **C3, amended.**  Neither cited pipe splitter respects quoted regions.
`split_pipes` of `src/src/dynamic.c` splits the line exactly at the `|`
characters preceded by an even number of `'` characters and an even number of
`"` characters (each quote character toggles its flag regardless of the other
kind of quote), and trims surrounding whitespace from every resulting part.
The `strtok_r` split of `main` in `src/unnamed/part_000` cuts at every `|`
regardless of any quoting — even inside matched single or double quotes —
drops empty segments, and trims every part. -/
theorem C3_pipe_split_characterisation :
    (∀ line : List Char, split_pipes line = (parity_split line 0 0).map trimList)
    ∧ (∀ line : List Char,
        part000_split_pipes line
          = ((split_every_pipe line).filter (fun p => p ≠ [])).map trimList) := by
  constructor
  · intro line
    have h := split_pipes_go_eq_parity line 0 0 []
    simpa [split_pipes, consHead_nil] using h
  · intro line
    rw [part000_split_pipes, strtok_runs_eq line [], consHead_nil]
lemma takeWhile_append_all {α : Type} (p : α → Bool) :
    ∀ (s t : List α), (∀ c ∈ s, p c = true) →
      (s ++ t).takeWhile p = s ++ t.takeWhile p := by
  intro s
  induction s with
  | nil => intro t _; simp
  | cons a s ih =>
    intro t h
    have ha : p a = true := h a (by simp)
    simp [List.takeWhile_cons, ha]
    exact ih t (fun c hc => h c (by simp [hc]))
lemma dropWhile_append_all {α : Type} (p : α → Bool) :
    ∀ (s t : List α), (∀ c ∈ s, p c = true) →
      (s ++ t).dropWhile p = t.dropWhile p := by
  intro s
  induction s with
  | nil => intro t _; simp
  | cons a s ih =>
    intro t h
    have ha : p a = true := h a (by simp)
    simp [List.dropWhile_cons, ha]
    exact ih t (fun c hc => h c (by simp [hc]))
lemma takeWhile_all_eq_self {α : Type} (p : α → Bool) (s : List α)
    (h : ∀ c ∈ s, p c = true) : s.takeWhile p = s := by
  have := takeWhile_append_all p s [] h
  simpa using this
/-- **C2, counterexample.**  The claim says expansion is the identity on a
fully single-quoted token, the quote characters being preserved.  In fact the
single-quote branch of `expand_variables_and_subst` (`src/src/dynamic.c`
lines 216-221) copies only the bytes between the quotes and emits neither
quote character: expanding `'a'` yields `a`, not `'a'`. -/
theorem C2_counterexample :
    expand_variables_and_subst env0 cap0 "'a'".toList = some "a".toList
    ∧ expand_variables_and_subst env0 cap0 "'a'".toList ≠ some "'a'".toList := by
  refine ⟨by decide, by decide⟩
/-- **C2, amended.**  For a fully single-quoted token `'s'` (with no `'`
inside `s`), `expand_variables_and_subst` copies the contents `s` literally
— no variable or command substitution happens inside the quotes — but strips
the two quote characters, so the result is `s`, not `'s'`. -/
theorem C2_single_quoted_contents_literal (env : EnvT) (cap : CapT) (s : List Char)
    (h : ∀ c ∈ s, c ≠ '\'') :
    expand_variables_and_subst env cap ('\'' :: (s ++ ['\''])) = some s := by
  have hp : ∀ c ∈ s, (decide (c ≠ '\'') : Bool) = true := by
    intro c hc; simpa using h c hc
  have hl : ('\'' :: (s ++ ['\''])).length + 2 = (s.length + 3) + 1 := by
    simp
  rw [expand_variables_and_subst, hl, expandGo]
  rw [if_neg (by decide), if_pos rfl]
  have htake : (s ++ ['\'']).takeWhile (fun c => c ≠ '\'') = s := by
    rw [takeWhile_append_all _ s ['\''] hp]
    simp
  have hdrop : (s ++ ['\'']).dropWhile (fun c => c ≠ '\'') = ['\''] := by
    rw [dropWhile_append_all _ s ['\''] hp]
    simp
  rw [htake, hdrop]
  have hdrop1 : (['\''] : List Char).drop 1 = [] := rfl
  have h3 : s.length + 3 = (s.length + 2) + 1 := rfl
  rw [hdrop1, h3, expandGo]
  simp
/-- **C2, witness.**  `'$X'` expands to `$X` (contents literal, quotes
stripped) in the empty environment. -/
theorem C2_witness :
    (∀ c ∈ "$X".toList, c ≠ '\'')
    ∧ expand_variables_and_subst env0 cap0 ('\'' :: ("$X".toList ++ ['\''])) = some "$X".toList := by
  exact ⟨by decide, C2_single_quoted_contents_literal env0 cap0 "$X".toList (by decide)⟩
/-- **C7, counterexample.**  The claim says a `$` followed by a digit is
copied literally.  In the unquoted `$` branch of `expand_variables_and_subst`
(`src/src/dynamic.c` lines 263-266) the name scan accepts any
`isalnum || '_'` character, digits included, so `$1` is read as the variable
name `1` and replaced by its (empty) value: the expansion of `$1` in an empty
environment is the empty string, not the literal `$1`. -/
theorem C7_counterexample :
    expand_variables_and_subst env0 cap0 "$1".toList = some []
    ∧ expand_variables_and_subst env0 cap0 "$1".toList ≠ some "$1".toList := by
  refine ⟨by decide, by decide⟩
/-- **C7, amended.**  For an unquoted `$`: the name is the maximal run of
characters in `[A-Za-z0-9_]` after the `$` — a name may begin with a digit —
and `$name` is replaced by the environment value of `name`, or the empty
string when unset; the `$` is copied literally only when the next character
is not in `[A-Za-z0-9_]` (and starts none of the `${`, `$(` forms nor another
specially handled character), for example at end of line or before
punctuation. -/
theorem C7_dollar_expansion :
    (∀ (env : EnvT) (cap : CapT) (name : List Char), name ≠ [] →
      (∀ c ∈ name, isAlnumU c = true) →
      expand_variables_and_subst env cap ('$' :: name) = some ((env name).getD []))
    ∧ (∀ (env : EnvT) (cap : CapT) (c : Char), isAlnumU c = false →
      c ≠ '{' → c ≠ '(' → c ≠ '\\' → c ≠ '\'' → c ≠ '"' → c ≠ '$' → c ≠ '`' →
      expand_variables_and_subst env cap ['$', c] = some ['$', c]) := by
  constructor
  · intro env cap name hne hall
    obtain ⟨c0, name', rfl⟩ := List.exists_cons_of_ne_nil hne
    have hc0 : isAlnumU c0 = true := hall c0 (by simp)
    have hfuel : ('$' :: c0 :: name').length + 2 = (name'.length + 3) + 1 := by simp
    rw [expand_variables_and_subst, hfuel, expandGo]
    rw [if_neg (by decide), if_neg (by decide), if_neg (by decide), if_pos rfl]
    have hnb : ¬((c0 :: name').head? = some '{') := by
      intro hh
      rw [List.head?_cons, Option.some_inj] at hh
      rw [hh] at hc0
      exact absurd hc0 (by decide)
    have hnp : ¬((c0 :: name').head? = some '(') := by
      intro hh
      rw [List.head?_cons, Option.some_inj] at hh
      rw [hh] at hc0
      exact absurd hc0 (by decide)
    rw [if_neg hnb, if_neg hnp]
    have htw : (c0 :: name').takeWhile isAlnumU = c0 :: name' :=
      takeWhile_all_eq_self _ _ hall
    simp only [htw]
    rw [if_neg (by simp), List.drop_length]
    have h3 : name'.length + 3 = (name'.length + 2) + 1 := rfl
    rw [h3, expandGo]
    simp
  · intro env cap c h hbrace hparen hbs hsq hdq hdollar hbt
    show expandGo env cap (3 + 1) ['$', c] = some ['$', c]
    rw [expandGo]
    rw [if_neg (by decide), if_neg (by decide), if_neg (by decide), if_pos rfl]
    have hnb : ¬(([c] : List Char).head? = some '{') := by simp [hbrace]
    have hnp : ¬(([c] : List Char).head? = some '(') := by simp [hparen]
    rw [if_neg hnb, if_neg hnp]
    have htw : ([c] : List Char).takeWhile isAlnumU = [] := by
      simp [List.takeWhile_cons, h]
    simp only [htw, if_true]
    have h2 : (3 : Nat) = 2 + 1 := rfl
    rw [h2, expandGo]
    rw [if_neg hbs, if_neg hsq, if_neg hdq, if_neg hdollar, if_neg hbt]
    have h1 : (2 : Nat) = 1 + 1 := rfl
    rw [h1, expandGo]
    simp
/-- **C7, witness.**  `$PATH5x` is one alphanumeric name; in an environment
where it is unset the expansion is empty, and `$%` keeps its `$`. -/
theorem C7_witness :
    ("PATH5x".toList ≠ [] ∧ (∀ c ∈ "PATH5x".toList, isAlnumU c = true)
      ∧ expand_variables_and_subst env0 cap0 ('$' :: "PATH5x".toList) = some [])
    ∧ (isAlnumU '%' = false
      ∧ expand_variables_and_subst env0 cap0 ['$', '%'] = some ['$', '%']) := by
  refine ⟨⟨by decide, by decide, ?_⟩, ⟨by decide, ?_⟩⟩
  · exact C7_dollar_expansion.1 env0 cap0 "PATH5x".toList (by decide) (by decide)
  · exact C7_dollar_expansion.2 env0 cap0 '%' (by decide) (by decide) (by decide)
      (by decide) (by decide) (by decide) (by decide) (by decide)
/-- **C4, counterexample.**  In the `src/src/main.c` REPL only the exactly
empty line is skipped (`strlen(line) == 0`, line 287); a line consisting of a
single space is empty after trimming, yet it is accepted and `save_history`
writes it to the history file and pushes it into the in-memory history. -/
theorem C4_counterexample :
    ([' '] : List Char).all isCSpace = true
    ∧ mainc_repl_history true [] [' '] = some [[' ']] := by
  refine ⟨by decide, by decide⟩
/-- **C4, amended.**  In the `src/src/dynamic.c` REPL a line that is empty
after trimming leading whitespace is skipped before any history write or
fork; in the `src/src/main.c` REPL only the exactly empty line is skipped —
a whitespace-only line is written to history there. -/
theorem C4_blank_line_skipped :
    (∀ line : List Char, line.dropWhile isCSpace = [] → dynamic_repl_gate line = none)
    ∧ (∀ (fileOk : Bool) (hist : List (List Char)), mainc_repl_history fileOk hist [] = none) := by
  constructor
  · intro line h
    simp [dynamic_repl_gate, h]
  · intro fileOk hist
    simp [mainc_repl_history]
/-- **C4, witness.**  The line of two spaces and a tab is skipped whole by the
`dynamic.c` REPL gate. -/
theorem C4_witness :
    "  \t".toList.dropWhile isCSpace = []
    ∧ dynamic_repl_gate "  \t".toList = none := by
  exact ⟨by decide, C4_blank_line_skipped.1 "  \t".toList (by decide)⟩
/-- **C6, counterexample.**  The claim says that when the store is at capacity
the oldest entry is dropped and the accepted line is always present as the
newest entry.  `save_history` of `src/src/main.c` (lines 75-82, cited by the
claim) does the opposite: at capacity the new line is simply not stored in
memory, so after the append the newest in-memory entry is still the old one,
not the accepted line. -/
theorem C6_counterexample :
    save_history_mem true (List.replicate MAX_HISTORY ['x']) ['y']
      = List.replicate MAX_HISTORY ['x']
    ∧ (save_history_mem true (List.replicate MAX_HISTORY ['x']) ['y']).getLast?
      ≠ some ['y'] := by
  have h1 : save_history_mem true (List.replicate MAX_HISTORY ['x']) ['y']
      = List.replicate MAX_HISTORY ['x'] := by
    simp [save_history_mem, List.length_replicate]
  refine ⟨h1, ?_⟩
  rw [h1, List.getLast?_replicate]
  simp [MAX_HISTORY]
/-- **C6, amended.**  `add_history_inmem_and_file` of `src/src/dynamic.c`
behaves as the claim says: a non-empty accepted line is always the newest
entry after the append, appended below capacity and replacing the dropped
oldest entry at capacity.  `save_history` of `src/src/main.c`, however, keeps
the new line as the newest entry only below `MAX_HISTORY`; at capacity it
drops the new line, not the oldest one. -/
theorem C6_history_bounded (hist : List (List Char)) (line : List Char)
    (h : line ≠ []) :
    (add_history_inmem hist line).getLast? = some line
    ∧ (hist.length < HISTORY_MAX → add_history_inmem hist line = hist ++ [line])
    ∧ (¬hist.length < HISTORY_MAX → add_history_inmem hist line = hist.drop 1 ++ [line])
    ∧ (hist.length < MAX_HISTORY →
        (save_history_mem true hist line).getLast? = some line) := by
  refine ⟨?_, ?_, ?_, ?_⟩
  · by_cases hc : hist.length < HISTORY_MAX
    · simp [add_history_inmem, h, hc, List.getLast?_concat]
    · simp [add_history_inmem, h, hc, List.getLast?_concat]
  · intro hc; simp [add_history_inmem, h, hc]
  · intro hc; simp [add_history_inmem, h, hc]
  · intro hc; simp [save_history_mem, hc, List.getLast?_concat]
/-- **C6, witness.**  Appending `b` to the one-entry history `[a]` leaves `b`
as the newest entry. -/
theorem C6_witness :
    (['b'] : List Char) ≠ []
    ∧ (add_history_inmem [['a']] ['b']).getLast? = some ['b'] := by
  exact ⟨by decide, (C6_history_bounded [['a']] ['b'] (by decide)).1⟩
lemma history_listing_concat_getLast :
    ∀ (h : List (List Char)) (n : Nat) (l : List Char),
      (history_listing n (h ++ [l])).getLast? = some (n + h.length, l) := by
  intro h
  induction h with
  | nil => intro n l; simp [history_listing]
  | cons x h ih =>
    intro n l
    have hstep : history_listing n ((x :: h) ++ [l])
        = (n, x) :: history_listing (n + 1) (h ++ [l]) := rfl
    rw [hstep]
    rcases hd : history_listing (n + 1) (h ++ [l]) with _ | ⟨y, ys⟩
    · exfalso
      have := ih (n + 1) l
      rw [hd] at this
      simp at this
    · rw [List.getLast?_cons_cons, ← hd, ih (n + 1) l]
      simp [Nat.add_comm, Nat.add_assoc, Nat.add_left_comm]
/-- **C10.**  Because `save_history` runs before dispatch in the
`src/src/main.c` REPL (and identically in `src/unnamed/part_000`), an accepted
line whose first parsed word is `history` is already the newest in-memory
entry when the `history` builtin prints its listing, provided the in-memory
history is below capacity and the history file opened for append: the listing
ends with the pair `(old length + 1, the line itself)`. -/
theorem C10_history_lists_itself (fileOk : Bool) (hist : List (List Char))
    (line : List Char) (hok : fileOk = true) (hcap : hist.length < MAX_HISTORY)
    (hne : line.length ≠ 0)
    (hhead : (parse_input line).head? = some "history".toList) :
    mainc_history_builtin fileOk hist line = some (history_listing 1 (hist ++ [line]))
    ∧ (history_listing 1 (hist ++ [line])).getLast? = some (hist.length + 1, line) := by
  constructor
  · rw [mainc_history_builtin, if_neg hne]
    have hsave : save_history_mem fileOk hist line = hist ++ [line] := by
      simp [save_history_mem, hok, hcap]
    simp only [hsave, hhead, if_pos rfl, if_true]
  · rw [history_listing_concat_getLast]
    simp [Nat.add_comm]
/-- **C10, witness.**  With one entry `ls` in memory, the line `history` lists
itself with index 2 as the last entry. -/
theorem C10_witness :
    ((1 : Nat) < MAX_HISTORY
      ∧ (parse_input "history".toList).head? = some "history".toList)
    ∧ mainc_history_builtin true [['l', 's']] "history".toList
        = some (history_listing 1 ([['l', 's']] ++ ["history".toList]))
    ∧ (history_listing 1 ([['l', 's']] ++ ["history".toList])).getLast?
        = some (2, "history".toList) := by
  refine ⟨⟨by decide, by decide⟩, ?_, ?_⟩
  · exact (C10_history_lists_itself true [['l', 's']] "history".toList rfl
      (by decide) (by decide) (by decide)).1
  · exact (C10_history_lists_itself true [['l', 's']] "history".toList rfl
      (by decide) (by decide) (by decide)).2
/-- **C5, counterexample.**  The claim says every forked child whose `execvp`
fails exits with status 127.  In `shell_execute` of `src/src/main.c` (cited
by the claim) the child writes its diagnostic via `perror` but then calls
`exit(EXIT_FAILURE)`, that is status 1, not 127. -/
theorem C5_counterexample :
    child_after_exec_mainc false = ChildOutcome.exited 1 true
    ∧ child_after_exec_mainc false ≠ ChildOutcome.exited 127 true := by
  refine ⟨by decide, by decide⟩
/-- **C5, amended.**  When `execvp` fails in a forked child, the child writes
a diagnostic to stderr and exits with status 127 in `execute_pipeline`
(`src/src/dynamic.c`) and in `launch_pipeline` (`src/unnamed/part_000`);
in `shell_execute` of `src/src/main.c` it writes the diagnostic but exits
with `EXIT_FAILURE`, that is status 1. -/
theorem C5_exec_failure_exit_codes :
    child_after_exec_dynamic false = ChildOutcome.exited 127 true
    ∧ child_after_exec_part000 false = ChildOutcome.exited 127 true
    ∧ child_after_exec_mainc false = ChildOutcome.exited EXIT_FAILURE true
    ∧ EXIT_FAILURE = 1 := by
  refine ⟨by decide, by decide, by decide, by decide⟩
/-- **C1.**  On the pipe/fork-failure exit path the handover pairing fails:
for a foreground two-segment pipeline whose first fork succeeds and whose
second fork fails, the first child has moved the terminal to the child
process group (dynamic.c line 452) and `execute_pipeline` returns `-1`
(line 442) without the reclaiming `tcsetpgrp(shell_terminal, shell_pgid)`,
so the last handover before the next prompt is to the child group, not back
to the shell.  On the completed paths (last conjunct) the pairing does hold. -/
theorem C1_terminal_not_reclaimed_on_fork_failure :
    execute_pipeline_tc_events false [StepOutcome.ok, StepOutcome.forkFail]
      = [TermOwner.childPg]
    ∧ (execute_pipeline_tc_events false [StepOutcome.ok, StepOutcome.forkFail]).getLast?
      ≠ some TermOwner.shellPg
    ∧ execute_pipeline_tc_events false [StepOutcome.ok, StepOutcome.ok]
      = [TermOwner.childPg, TermOwner.childPg, TermOwner.childPg, TermOwner.shellPg] := by
  refine ⟨by decide, by decide, by decide⟩
/-- **C8, counterexample.**  The claim says a redirection operator with no
following target word makes the shell abandon the whole line without
launching any process.  For the segment `cat <`, `execute_pipeline` of
`src/src/dynamic.c` prints `syntax error near '<'` (line 428) but keeps
going: the loop falls through and a child running `cat` is forked all the
same. -/
theorem C8_counterexample :
    tokenize "cat <".toList = ["cat".toList, "<".toList]
    ∧ exec_segment (tokenize "cat <".toList)
      = SegAction.forked ["cat".toList] true
    ∧ exec_segment (tokenize "cat <".toList) ≠ SegAction.skipped := by
  refine ⟨by decide, by decide, by decide⟩
lemma extract_redirs_trailing_op (op : List Char)
    (hop : op = "<".toList ∨ op = ">".toList ∨ op = ">>".toList) :
    ∀ pre : List (List Char), "<".toList ∉ pre → ">".toList ∉ pre →
      ">>".toList ∉ pre →
      extract_redirs (pre ++ [op]) = ⟨pre, none, none, true⟩ := by
  intro pre
  induction pre with
  | nil =>
    intro _ _ _
    rcases hop with h | h | h <;> subst h <;> decide
  | cons a pre ih =>
    intro h1 h2 h3
    have ha1 : a ≠ "<".toList := fun hc => h1 (by simp [hc])
    have ha2 : a ≠ ">".toList := fun hc => h2 (by simp [hc])
    have ha3 : a ≠ ">>".toList := fun hc => h3 (by simp [hc])
    have hrec := ih (fun hc => h1 (List.mem_cons_of_mem a hc))
      (fun hc => h2 (List.mem_cons_of_mem a hc))
      (fun hc => h3 (List.mem_cons_of_mem a hc))
    show extract_redirs (a :: (pre ++ [op])) = ⟨a :: pre, none, none, true⟩
    rw [extract_redirs.eq_def]
    dsimp only
    rw [if_neg ha1, if_neg (not_or.mpr ⟨ha2, ha3⟩), hrec]
/-- **C8, amended.**  A redirection operator with no following target word is
not a fatal syntax error in this code.  In `execute_pipeline`
(`src/src/dynamic.c`) the diagnostic `syntax error near '...'` is written to
stderr but the line is not abandoned: the pipeline child is forked with the
operator dropped from `cleanargv`.  In `parse_segment`
(`src/unnamed/part_000`) nothing is reported at all: the missing target
becomes the empty-string path, later handed to `open(2)` in the child. -/
theorem C8_missing_target_not_fatal :
    (∀ pre : List (List Char), pre ≠ [] → "<".toList ∉ pre → ">".toList ∉ pre →
      ">>".toList ∉ pre →
      exec_segment (pre ++ ["<".toList]) = SegAction.forked pre true)
    ∧ (parse_segment "cat >".toList).argv = ["cat".toList]
    ∧ (parse_segment "cat >".toList).outfile = some []
    ∧ (parse_segment "cat >".toList).infile = none := by
  refine ⟨?_, by decide, by decide, by decide⟩
  intro pre hne h1 h2 h3
  have hext := extract_redirs_trailing_op "<".toList (Or.inl rfl) pre h1 h2 h3
  unfold exec_segment
  rw [if_neg (by simp), hext]
/-- **C8, witness.**  The tokens of `cat <` are forked with the error flag
set. -/
theorem C8_witness :
    (["cat".toList] ≠ ([] : List (List Char))
      ∧ "<".toList ∉ ["cat".toList] ∧ ">".toList ∉ ["cat".toList]
      ∧ ">>".toList ∉ ["cat".toList])
    ∧ exec_segment (["cat".toList] ++ ["<".toList])
      = SegAction.forked ["cat".toList] true := by
  refine ⟨⟨by decide, by decide, by decide, by decide⟩, ?_⟩
  exact C8_missing_target_not_fatal.1 ["cat".toList] (by decide) (by decide)
    (by decide) (by decide)
lemma liveList_cons_zero (s : JobRec) (rest : List JobRec) (h : s.id = 0) :
    liveList (s :: rest) = liveList rest := by
  simp [liveList, List.filter_cons, h]
lemma liveList_cons_pos (s : JobRec) (rest : List JobRec) (h : s.id ≠ 0) :
    liveList (s :: rest) = s.id :: liveList rest := by
  simp [liveList, List.filter_cons, h]
/-- **C9, counterexample.**  The claim says ids are recycled: after removing
the job with the smallest free id, the next added job can receive that id
again.  In `add_job` (`src/src/dynamic.c` line 113) the id is always
`next_job_id++`, a counter that never decreases and that `remove_job` does
not touch: after adding a job (id 1) and removing it, the next job added
receives id 2 — id 1 is never handed out again. -/
theorem C9_counterexample :
    liveIds (add_job initJobs 100 "sleep 100 &".toList JobState.running) = [1]
    ∧ liveIds (add_job
        (remove_job (add_job initJobs 100 "sleep 100 &".toList JobState.running) 1)
        101 "ls &".toList JobState.running) = [2] := by
  refine ⟨by decide, by decide⟩
lemma add_job_slots_live_perm :
    ∀ (slots : List JobRec) (nid : Nat) (pgid : Int) (cmd : List Char)
      (st : JobState) (slots2 : List JobRec), nid ≠ 0 →
      add_job_slots slots nid pgid cmd st = some slots2 →
      (liveList slots2).Perm (nid :: liveList slots) := by
  intro slots
  induction slots with
  | nil =>
    intro nid pgid cmd st slots2 hnid h
    simp [add_job_slots] at h
  | cons s rest ih =>
    intro nid pgid cmd st slots2 hnid h
    by_cases hs : s.id = 0
    · rw [add_job_slots, if_pos hs] at h
      have h2 : (⟨nid, pgid, cmd, st⟩ : JobRec) :: rest = slots2 := Option.some_inj.mp h
      subst h2
      rw [liveList_cons_pos _ rest hnid, liveList_cons_zero s rest hs]
    · rw [add_job_slots, if_neg hs] at h
      rcases Option.map_eq_some'.mp h with ⟨r2, hr2, hcons⟩
      subst hcons
      have hperm := ih nid pgid cmd st r2 hnid hr2
      rw [liveList_cons_pos s r2 hs, liveList_cons_pos s rest hs]
      exact (hperm.cons s.id).trans (List.Perm.swap nid s.id _)
lemma remove_job_slots_live_sublist :
    ∀ (slots : List JobRec) (id : Nat),
      List.Sublist (liveList (remove_job_slots slots id)) (liveList slots) := by
  intro slots
  induction slots with
  | nil => intro id; simp [remove_job_slots]
  | cons s rest ih =>
    intro id
    by_cases hs : s.id = id
    · rw [remove_job_slots, if_pos hs, liveList_cons_zero (freeSlot JobState.done) rest rfl]
      by_cases hz : s.id = 0
      · rw [liveList_cons_zero s rest hz]
      · rw [liveList_cons_pos s rest hz]
        exact List.sublist_cons_self _ _
    · rw [remove_job_slots, if_neg hs]
      by_cases hz : s.id = 0
      · rw [liveList_cons_zero s _ hz, liveList_cons_zero s rest hz]
        exact ih id
      · rw [liveList_cons_pos s _ hz, liveList_cons_pos s rest hz]
        exact (ih id).cons₂ s.id
/-- **C9, amended.**  Job ids are small positive integers, unique among live
jobs, but they are not recycled: `add_job` always hands out the strictly
increasing counter `next_job_id`, removal leaves the counter untouched, and
every live id stays below the counter — so the id of a removed job is never
given to a later job. -/
theorem C9_job_ids_monotone (t : JobsSt) (pgid : Int) (cmd : List Char)
    (st : JobState) (id : Nat) (h : JobsWF t) :
    JobsWF (add_job t pgid cmd st)
    ∧ JobsWF (remove_job t id)
    ∧ t.next_job_id ≤ (add_job t pgid cmd st).next_job_id
    ∧ (remove_job t id).next_job_id = t.next_job_id
    ∧ (∀ i ∈ liveIds (add_job t pgid cmd st), i = t.next_job_id ∨ i ∈ liveIds t)
    ∧ (∀ i ∈ liveIds (remove_job t id), i ∈ liveIds t) := by
  obtain ⟨hpos, hbound, hnodup⟩ := h
  have hnid : t.next_job_id ≠ 0 := Nat.pos_iff_ne_zero.mp hpos
  have hsub := remove_job_slots_live_sublist t.slots id
  have hremlive : ∀ i ∈ liveIds (remove_job t id), i ∈ liveIds t := by
    intro i hi
    exact hsub.mem hi
  have hremwf : JobsWF (remove_job t id) := by
    refine ⟨hpos, ?_, hnodup.sublist hsub⟩
    intro i hi
    exact hbound i (hremlive i hi)
  rcases hadd : add_job_slots t.slots t.next_job_id pgid cmd st with _ | slots2
  · have heq : add_job t pgid cmd st = t := by
      rw [add_job, hadd]
    rw [heq]
    exact ⟨⟨hpos, hbound, hnodup⟩, hremwf, Nat.le_refl _, rfl,
      fun i hi => Or.inr hi, hremlive⟩
  · have heq : add_job t pgid cmd st = ⟨slots2, t.next_job_id + 1⟩ := by
      rw [add_job, hadd]
    have hperm := add_job_slots_live_perm t.slots t.next_job_id pgid cmd st
      slots2 hnid hadd
    have hmemiff : ∀ i, i ∈ liveList slots2 ↔ i = t.next_job_id ∨ i ∈ liveIds t := by
      intro i
      rw [hperm.mem_iff, List.mem_cons]
      rfl
    have hlive : ∀ i ∈ liveIds (add_job t pgid cmd st),
        i = t.next_job_id ∨ i ∈ liveIds t := by
      intro i hi
      rw [heq] at hi
      exact (hmemiff i).mp hi
    have hnotin : t.next_job_id ∉ liveIds t := by
      intro hin
      exact absurd (hbound _ hin).2 (lt_irrefl _)
    have haddwf : JobsWF (add_job t pgid cmd st) := by
      rw [heq]
      refine ⟨Nat.lt_of_lt_of_le hpos (Nat.le_succ _), ?_, ?_⟩
      · intro i hi
        rcases (hmemiff i).mp hi with hh | hh
        · exact ⟨hh ▸ hpos, hh ▸ Nat.lt_succ_self _⟩
        · exact ⟨(hbound i hh).1, Nat.lt_succ_of_lt (hbound i hh).2⟩
      · exact hperm.nodup_iff.mpr (List.nodup_cons.mpr ⟨hnotin, hnodup⟩)
    refine ⟨haddwf, hremwf, ?_, rfl, hlive, hremlive⟩
    rw [heq]
    exact Nat.le_succ _
/-- **C9, witness.**  The initial table is well formed and stays so when a
job is added. -/
theorem C9_witness :
    JobsWF initJobs
    ∧ JobsWF (add_job initJobs 42 "sleep 30 &".toList JobState.running) := by
  have hwf : JobsWF initJobs := by
    unfold JobsWF
    refine ⟨by decide, ?_, ?_⟩
    · have hl : liveIds initJobs = [] := by decide
      rw [hl]
      intro i hi
      exact absurd hi (List.not_mem_nil i)
    · have hl : liveIds initJobs = [] := by decide
      rw [hl]
      exact List.nodup_nil
  exact ⟨hwf,
    (C9_job_ids_monotone initJobs 42 "sleep 30 &".toList JobState.running 1 hwf).1⟩
